import Mathlib

set_option maxHeartbeats 1000000

/-!
Verification of the `sort` transformation operator (package `functions`):
operation-spec construction, procedure-spec derivation and copying, and the
stateful transformation node (partition-key reordering, duplicate-key
detection, column-map reuse, lifecycle forwarding).

Machine integers (`int`) are modelled as `Int`/`Nat`; Go slices are modelled
as Lean lists, with out-of-bounds writes made explicit through `Option`
(a `none` result corresponds to a Go runtime panic).
-/

/-- Column data types of the engine (Go `query.DataType`); the zero value is
`TInvalid`. -/
inductive ColType where
  | TInvalid
  | TBool
  | TInt
  | TUInt
  | TFloat
  | TString
  | TTime
  deriving DecidableEq, Repr

/-- Column metadata (Go `query.ColMeta`): a label and a data type. -/
structure ColMeta where
  Label : String
  Typ : ColType
  deriving DecidableEq, Repr

/-- The Go zero value of `ColMeta`, as produced by `make([]query.ColMeta, n)`. -/
def zeroColMeta : ColMeta := ⟨"", ColType.TInvalid⟩

/-- Runtime values (Go `values.Value`); `vNull` is the zero (nil) value. -/
inductive Value where
  | vNull
  | vBool (b : Bool)
  | vInt (i : Int)
  | vUInt (u : Nat)
  | vFloat (f : Int)
  | vStr (s : String)
  | vTime (t : Int)
  deriving DecidableEq, Repr

/-- A partition key (Go `query.PartitionKey`): an ordered list of column
metadata paired positionally with a list of values. -/
structure PartitionKey where
  cols : List ColMeta
  vs : List Value
  deriving DecidableEq, Repr

/-- Go `key.Cols()`. -/
def PartitionKey.Cols (k : PartitionKey) : List ColMeta := k.cols

/-- Go `key.Value(j)`: the value of the j-th key column. -/
def PartitionKey.value (k : PartitionKey) (j : Nat) : Value :=
  k.vs.getD j Value.vNull

/-- Modelled from the spec: `query.PartitionKey.HasCol(label)` (the partition
key interface is an external collaborator); true when some key column has the
given label. -/
def PartitionKey.HasCol (k : PartitionKey) (label : String) : Bool :=
  k.cols.any (fun c => c.Label == label)

/-- Modelled from the spec: `execute.ColIdx(label, cols)`
(find-column-index): the first index whose label matches, `-1` if absent. -/
def ColIdx (label : String) : List ColMeta → Int
  | [] => -1
  | c :: cs =>
    if c.Label == label then 0
    else
      let r := ColIdx label cs
      if 0 ≤ r then r + 1 else -1

/-- Modelled from the spec: `execute.ContainsStr(strs, str)`
(contains-label): membership of a string in a string list. -/
def ContainsStr (strs : List String) (str : String) : Bool :=
  strs.any (fun s => s == str)

/-- The (column, value) pairs of a partition key, index-aligned. -/
def keyPairs (k : PartitionKey) : List (ColMeta × Value) :=
  k.cols.zip k.vs

/-- State of `sortedKey`'s two output arrays and the shared write index `j`.
The arrays have fixed length (Go `make([]T, n)`). -/
structure SKState where
  cols : List ColMeta
  vs : List Value
  j : Nat
  deriving DecidableEq, Repr

/-- One write step `cols[j] = c; vs[j] = v; j++` of `sortedKey`.
`none` models the Go index-out-of-range panic. -/
def skWrite (s : SKState) (c : ColMeta) (v : Value) : Option SKState :=
  if s.j < s.cols.length then
    if s.j < s.vs.length then
      some ⟨s.cols.set s.j c, s.vs.set s.j v, s.j + 1⟩
    else none
  else none

/-- Run a list of `skWrite`s in order. -/
def skWriteAll : List (ColMeta × Value) → SKState → Option SKState
  | [], s => some s
  | cv :: ws, s => (skWrite s cv.1 cv.2).bind (skWriteAll ws)

/-- First loop of `sortedKey`: for each configured sort label, if it is a key
column, copy its metadata and value to the next slot. -/
def sortedKeyLoop1 (key : PartitionKey) : List String → SKState → Option SKState
  | [], s => some s
  | label :: rest, s =>
    let idx := ColIdx label key.Cols
    if 0 ≤ idx then
      (skWrite s (key.Cols.getD idx.toNat zeroColMeta) (key.value idx.toNat)).bind
        (sortedKeyLoop1 key rest)
    else sortedKeyLoop1 key rest s

/-- Second loop of `sortedKey`: for each key column (with its index) whose
label is not among the configured sort columns, copy it to the next slot. -/
def sortedKeyLoop2 (tcols : List String) (key : PartitionKey) :
    Nat → List ColMeta → SKState → Option SKState
  | _, [], s => some s
  | idx, c :: cs, s =>
    if ContainsStr tcols c.Label then sortedKeyLoop2 tcols key (idx + 1) cs s
    else (skWrite s c (key.value idx)).bind (sortedKeyLoop2 tcols key (idx + 1) cs)

/-- `sortTransformation.sortedKey`, with the final array state exposed:
allocate two arrays of length `len(key.Cols())`, run both loops. -/
def sortedKeyState (tcols : List String) (key : PartitionKey) : Option SKState :=
  let n := key.Cols.length
  (sortedKeyLoop1 key tcols ⟨List.replicate n zeroColMeta, List.replicate n Value.vNull, 0⟩).bind
    (sortedKeyLoop2 tcols key 0 key.Cols)

/-- `sortTransformation.sortedKey`: the reordered key
(`execute.NewPartitionKey(cols, vs)` on the final arrays);
`none` models a panic. -/
def sortedKey (tcols : List String) (key : PartitionKey) : Option PartitionKey :=
  (sortedKeyState tcols key).map (fun s => ⟨s.cols, s.vs⟩)

/-- The key-selection loop at the top of `sortTransformation.Process`:
scan the configured sort columns; on the first one that is a key column,
replace the key by `sortedKey` and stop. -/
def processKeyLoop (tcols : List String) (key : PartitionKey) :
    List String → Option PartitionKey
  | [] => some key
  | label :: rest =>
    if key.HasCol label then sortedKey tcols key
    else processKeyLoop tcols key rest

/-- The key used by `Process` for the block (lines 133–139 of the source). -/
def processKey (tcols : List String) (key : PartitionKey) : Option PartitionKey :=
  processKeyLoop tcols key tcols

/-- The key reordering described by the spec, stated on (column, value)
pairs: configured sort columns that are key columns, in configured order
(each with its value), followed by the remaining key pairs in original
order. -/
def specSortedPairs (tcols : List String) (key : PartitionKey) :
    List (ColMeta × Value) :=
  tcols.filterMap (fun l => (keyPairs key).find? (fun cv => cv.1.Label == l)) ++
    (keyPairs key).filter (fun cv => !(ContainsStr tcols cv.1.Label))

/-- The sequence of (column, value) writes performed by `sortedKey`'s first
loop: one write per configured sort label that is a key column. -/
def keySortWrites (key : PartitionKey) : List String → List (ColMeta × Value)
  | [] => []
  | label :: rest =>
    let idx := ColIdx label key.Cols
    if 0 ≤ idx then
      (key.Cols.getD idx.toNat zeroColMeta, key.value idx.toNat) ::
        keySortWrites key rest
    else keySortWrites key rest

/-- The sequence of (column, value) writes performed by `sortedKey`'s second
loop from position `idx` on: one write per remaining key column whose label
is not a configured sort column. -/
def keyRestWrites (tcols : List String) (key : PartitionKey) :
    Nat → List ColMeta → List (ColMeta × Value)
  | _, [] => []
  | idx, c :: cs =>
    if ContainsStr tcols c.Label then keyRestWrites tcols key (idx + 1) cs
    else (c, key.value idx) :: keyRestWrites tcols key (idx + 1) cs

/-- A column-oriented block (Go `query.Block`): a partition key, column
metadata, and rows (each row positionally aligned with `cols`). -/
structure Block where
  key : PartitionKey
  cols : List ColMeta
  rows : List (List Value)
  deriving DecidableEq, Repr

/-- Go `b.Key()`. -/
def Block.Key (b : Block) : PartitionKey := b.key

/-- An in-progress output block (Go `execute.BlockBuilder`, external
collaborator): accumulated column metadata and rows. -/
structure Builder where
  cols : List ColMeta
  rows : List (List Value)
  deriving DecidableEq, Repr

/-- Go `builder.NCols()`. -/
def Builder.NCols (b : Builder) : Nat := b.cols.length

/-- Modelled from the spec: `execute.AddBlockCols(b, builder)`
(add-all-columns-from-block-to-builder), preserving column order and type. -/
def AddBlockCols (b : Block) (builder : Builder) : Builder :=
  { builder with cols := builder.cols ++ b.cols }

/-- Modelled from the spec: `execute.AppendBlock(b, builder, colMap)`
(append-all-rows-using-column-map): every row of the block is appended to the
builder, destination column `j` reading source column `colMap[j]`. -/
def AppendBlock (b : Block) (builder : Builder) (colMap : List Int) : Builder :=
  { builder with
    rows := builder.rows ++
      b.rows.map (fun r => colMap.map (fun sj => r.getD sj.toNat Value.vNull)) }

/-- Modelled from the spec: strict natural ordering on values of equal kind
(numeric, lexicographic for strings, chronological for times,
false before true for booleans). -/
def valueLT : Value → Value → Bool
  | Value.vBool a, Value.vBool b => !a && b
  | Value.vInt i, Value.vInt j => decide (i < j)
  | Value.vUInt i, Value.vUInt j => decide (i < j)
  | Value.vFloat i, Value.vFloat j => decide (i < j)
  | Value.vStr s, Value.vStr t => decide (s < t)
  | Value.vTime s, Value.vTime t => decide (s < t)
  | _, _ => false

/-- Modelled from the spec: multi-key strict row comparison; the configured
sort columns are compared in the given order, the first column (present in
the builder) with differing values decides; rows equal on all sort columns
compare as not-less. -/
def rowLT (cols : List ColMeta) (r1 r2 : List Value) : List String → Bool
  | [] => false
  | label :: rest =>
    let idx := ColIdx label cols
    if 0 ≤ idx then
      let v1 := r1.getD idx.toNat Value.vNull
      let v2 := r2.getD idx.toNat Value.vNull
      if valueLT v1 v2 then true
      else if valueLT v2 v1 then false
      else rowLT cols r1 r2 rest
    else rowLT cols r1 r2 rest

/-- Stable insertion of a row into an already-sorted row list: the new row
goes after every row it does not strictly precede. -/
def insertRow (lt : List Value → List Value → Bool) (r : List Value) :
    List (List Value) → List (List Value)
  | [] => [r]
  | s :: rest => if lt r s then r :: s :: rest else s :: insertRow lt r rest

/-- Modelled from the spec: `builder.Sort(cols, desc)`: stable in-place sort
of the builder's rows by the configured columns, the single direction flag
applied uniformly (descending reverses the strict comparison). -/
def Builder.Sort (b : Builder) (sortCols : List String) (desc : Bool) : Builder :=
  let lt := fun r1 r2 =>
    if desc then rowLT b.cols r2 r1 sortCols else rowLT b.cols r1 r2 sortCols
  { b with rows := b.rows.foldl (fun acc r => insertRow lt r acc) [] }

/-- The reusable column-index buffer of the node (Go slice `t.colMap`):
`backing` is the allocated array (length = capacity) and `len` the current
slice length (`len ≤ backing.length`). -/
structure ColMapState where
  backing : List Int
  len : Nat
  deriving DecidableEq, Repr

/-- The slice view `t.colMap` passed to `AppendBlock`. -/
def colMapView (cm : ColMapState) : List Int := cm.backing.take cm.len

/-- Lines 147–155 of the source: when capacity is short, reallocate at the
new size and fill with the identity mapping; otherwise only re-slice. -/
def updateColMap (cm : ColMapState) (ncols : Nat) : ColMapState :=
  if cm.backing.length < ncols then
    ⟨(List.range ncols).map Int.ofNat, ncols⟩
  else
    ⟨cm.backing, ncols⟩

/-- The zero value of the `colMap` field (a nil Go slice). -/
def initColMap : ColMapState := ⟨[], 0⟩

/-- Errors produced by the transformation node. -/
inductive SortError where
  | duplicateKey (key : PartitionKey)
  deriving DecidableEq, Repr

/-- The operator configuration held by `sortTransformation`
(fields `cols` and `desc`). -/
structure SortConfig where
  cols : List String
  desc : Bool
  deriving DecidableEq, Repr

/-- The mutable state of the node: the Block-Builder Cache contents (at most
one builder per distinct key, in creation order) and the reusable column
map. -/
structure SortState where
  cache : List (PartitionKey × Builder)
  colMap : ColMapState
  deriving DecidableEq, Repr

/-- Modelled from the spec: lookup half of `BlockBuilderCache.BlockBuilder`:
`some` exactly when a builder already exists for the key
(`created = false`). -/
def cacheLookup (cache : List (PartitionKey × Builder)) (key : PartitionKey) :
    Option Builder :=
  (cache.find? (fun e => e.1 == key)).map (fun e => e.2)

/-- `sortTransformation.Process`: re-derive the key, acquire a builder
(duplicate key is an error and leaves the state unchanged), add the block's
columns, bring the column map to the builder's column count, append all rows
through it, and sort the builder. `none` models a panic inside `sortedKey`. -/
def Process (t : SortConfig) (s : SortState) (b : Block) :
    Option (Except SortError Unit × SortState) :=
  (processKey t.cols b.Key).map (fun key =>
    match cacheLookup s.cache key with
    | some _ => (Except.error (SortError.duplicateKey b.Key), s)
    | none =>
      let builder := AddBlockCols b ⟨[], []⟩
      let ncols := builder.NCols
      let cm := updateColMap s.colMap ncols
      let builder := AppendBlock b builder (colMapView cm)
      let builder := builder.Sort t.cols t.desc
      (Except.ok (), ⟨s.cache ++ [(key, builder)], cm⟩))

/-- Go `execute.DefaultValueColLabel`. Modelled from the spec: the engine's
canonical default column label for unkeyed scalar results. -/
def DefaultValueColLabel : String := "_value"

/-- `SortOpSpec`: the operation specification (fields `Cols`, `Desc`). -/
structure SortOpSpec where
  Cols : List String
  Desc : Bool
  deriving DecidableEq, Repr

/-- Modelled from the spec: the named-argument accessors consumed by
`createSortOpSpec`. Each getter yields an error (type mismatch), an absent
argument, or the argument's value; `interpreter.ToStringArray` failures are
folded into the `cols` getter's error case. -/
structure Arguments where
  getArrayCols : Except String (Option (List String))
  getBoolDesc : Except String (Option Bool)

/-- `createSortOpSpec`: attach the upstream parent, read the optional
`cols` array (defaulting to the single default value column), read the
optional `desc` boolean (defaulting to false). -/
def createSortOpSpec (addParent : Except String Unit) (args : Arguments) :
    Except String SortOpSpec :=
  match addParent with
  | Except.error e => Except.error e
  | Except.ok _ =>
    match args.getArrayCols with
    | Except.error e => Except.error e
    | Except.ok colsArg =>
      let spec : SortOpSpec :=
        match colsArg with
        | some cs => ⟨cs, false⟩
        | none => ⟨[DefaultValueColLabel], false⟩
      match args.getBoolDesc with
      | Except.error e => Except.error e
      | Except.ok (some d) => Except.ok { spec with Desc := d }
      | Except.ok none => Except.ok spec

/-- `SortProcedureSpec`: the procedure specification derived from a
`SortOpSpec` (fields `Cols`, `Desc`). -/
structure SortProcedureSpec where
  Cols : List String
  Desc : Bool
  deriving DecidableEq, Repr

/-- The abstract `query.OperationSpec` handed to a procedure constructor:
either the sort operation's concrete kind or some other kind. -/
inductive OperationSpec where
  | sort (spec : SortOpSpec)
  | other (kind : String)
  deriving DecidableEq, Repr

/-- `newSortProcedure`: type-assert to `*SortOpSpec` (a mismatch is the
"invalid spec type" error) and copy the column list and direction. -/
def newSortProcedure (qs : OperationSpec) : Except String SortProcedureSpec :=
  match qs with
  | OperationSpec.sort spec => Except.ok ⟨spec.Cols, spec.Desc⟩
  | OperationSpec.other kind => Except.error ("invalid spec type " ++ kind)

/-- A heap of string slices, for the aliasing semantics of Go slice fields:
each allocated `[]string` is one entry, referred to by its index. -/
structure Heap where
  arrays : List (List String)
  deriving DecidableEq, Repr

/-- `SortProcedureSpec` with its `Cols` slice represented as a heap
reference, so that mutation and aliasing are observable. -/
structure SortProcedureSpecRef where
  colsRef : Nat
  desc : Bool
  deriving DecidableEq, Repr

/-- The column list a spec currently sees through its reference. -/
def specCols (h : Heap) (s : SortProcedureSpecRef) : List String :=
  h.arrays.getD s.colsRef []

/-- `SortProcedureSpec.Copy`: allocate a fresh slice of the same length,
copy the elements (`make` + `copy`), and copy `Desc`. -/
def SortProcedureSpecRef.Copy (h : Heap) (s : SortProcedureSpecRef) :
    Heap × SortProcedureSpecRef :=
  (⟨h.arrays ++ [h.arrays.getD s.colsRef []]⟩, ⟨h.arrays.length, s.desc⟩)

/-- In-place mutation of one element of a heap-allocated slice
(`spec.Cols[i] = v`). -/
def heapSet (h : Heap) (ref i : Nat) (v : String) : Heap :=
  ⟨h.arrays.set ref ((h.arrays.getD ref []).set i v)⟩

/-- Engine time stamps (Go `execute.Time`). -/
abbrev Time := Int

/-- Dataset identifiers (Go `execute.DatasetID`). -/
abbrev DatasetID := Nat

/-- Modelled from the spec: the downstream `execute.Dataset` endpoint, as
result oracles for the four forwarded lifecycle calls. -/
structure Dataset where
  retractBlock : PartitionKey → Except SortError Unit
  updateWatermark : Time → Except SortError Unit
  updateProcessingTime : Time → Except SortError Unit
  finish : Option SortError → Unit

/-- One observable call on the Dataset, with its argument. -/
inductive DatasetCall where
  | retractBlock (key : PartitionKey)
  | updateWatermark (mark : Time)
  | updateProcessingTime (pt : Time)
  | finish (err : Option SortError)
  deriving DecidableEq, Repr

/-- `sortTransformation.RetractBlock`: forward to `t.d.RetractBlock(key)`.
Returns the dataset's result and the list of dataset calls made. -/
def RetractBlock (d : Dataset) (id : DatasetID) (key : PartitionKey) :
    Except SortError Unit × List DatasetCall :=
  (d.retractBlock key, [DatasetCall.retractBlock key])

/-- `sortTransformation.UpdateWatermark`: forward to
`t.d.UpdateWatermark(mark)`. -/
def UpdateWatermark (d : Dataset) (id : DatasetID) (mark : Time) :
    Except SortError Unit × List DatasetCall :=
  (d.updateWatermark mark, [DatasetCall.updateWatermark mark])

/-- `sortTransformation.UpdateProcessingTime`: forward to
`t.d.UpdateProcessingTime(pt)`. -/
def UpdateProcessingTime (d : Dataset) (id : DatasetID) (pt : Time) :
    Except SortError Unit × List DatasetCall :=
  (d.updateProcessingTime pt, [DatasetCall.updateProcessingTime pt])

/-- `sortTransformation.Finish`: forward to `t.d.Finish(err)`. -/
def Finish (d : Dataset) (id : DatasetID) (err : Option SortError) :
    Unit × List DatasetCall :=
  (d.finish err, [DatasetCall.finish err])

/-- Invariant of the reusable column-map buffer: the allocated array holds
the identity mapping over its whole capacity, and the slice length does not
exceed the capacity. -/
def ColMapInv (cm : ColMapState) : Prop :=
  cm.backing = (List.range cm.backing.length).map Int.ofNat ∧
    cm.len ≤ cm.backing.length

/-- The spec's example input block: rows
`[(a:3,b:"x"), (a:1,b:"y"), (a:1,b:"z")]` under an empty partition key. -/
def exampleBlock : Block :=
  ⟨⟨[], []⟩, [⟨"a", ColType.TInt⟩, ⟨"b", ColType.TString⟩],
    [[Value.vInt 3, Value.vStr "x"], [Value.vInt 1, Value.vStr "y"],
      [Value.vInt 1, Value.vStr "z"]]⟩

/-- A freshly constructed node's state: empty cache, nil column map. -/
def initState : SortState := ⟨[], initColMap⟩

/-- The builder produced by processing `exampleBlock` ascending by `a`. -/
def exampleBuilderAsc : Builder :=
  ⟨[⟨"a", ColType.TInt⟩, ⟨"b", ColType.TString⟩],
    [[Value.vInt 1, Value.vStr "y"], [Value.vInt 1, Value.vStr "z"],
      [Value.vInt 3, Value.vStr "x"]]⟩

/-- The node state after processing `exampleBlock` once (ascending). -/
def stateAfterFirst : SortState :=
  ⟨[(⟨[], []⟩, exampleBuilderAsc)], ⟨[0, 1], 2⟩⟩

/-- A two-column partition key used as a concrete witness input. -/
def witnessKey : PartitionKey :=
  ⟨[⟨"a", ColType.TInt⟩, ⟨"b", ColType.TString⟩], [Value.vInt 1, Value.vStr "u"]⟩

/-- A partition key with a duplicated column label (counterexample input). -/
def dupLabelKey : PartitionKey :=
  ⟨[⟨"a", ColType.TInt⟩, ⟨"a", ColType.TInt⟩], [Value.vInt 1, Value.vInt 2]⟩

/-- Helper: the key-selection loop leaves the key unchanged when none of the
scanned labels is a key column. -/
theorem processKeyLoop_of_no_col (tcols : List String) (key : PartitionKey) :
    ∀ rest, (∀ l ∈ rest, key.HasCol l = false) →
      processKeyLoop tcols key rest = some key
  | [], _ => rfl
  | label :: rest, h => by
    unfold processKeyLoop
    rw [h label (List.mem_cons_self _ _)]
    simp only [Bool.false_eq_true, if_false]
    exact processKeyLoop_of_no_col tcols key rest
      (fun l hl => h l (List.mem_cons_of_mem _ hl))

/-- C5: if no configured sort column is a column of the block's partition
key, `Process` uses the key unchanged: the key it passes to the
Block-Builder Cache is the input key itself (same columns, same order, same
values). -/
theorem sort_key_passthrough (tcols : List String) (key : PartitionKey)
    (h : ∀ l ∈ tcols, key.HasCol l = false) :
    processKey tcols key = some key :=
  processKeyLoop_of_no_col tcols key tcols h

/-- C5 witness: a concrete key sharing no column with the sort list passes
through unchanged. -/
theorem sort_key_passthrough_witness :
    processKey ["zz"] witnessKey = some witnessKey :=
  sort_key_passthrough ["zz"] witnessKey (by decide)

/-- C2: the spec's example block sorted ascending by `a` yields rows
`[(1,"y"), (1,"z"), (3,"x")]`, and descending yields
`[(3,"x"), (1,"y"), (1,"z")]`; ties keep their original relative order in
both cases, and both calls succeed. -/
theorem sort_example_orders :
    (Process ⟨["a"], false⟩ initState exampleBlock).map
        (fun r => (r.1, r.2.cache.map (fun e => e.2.rows))) =
      some (Except.ok (),
        [[[Value.vInt 1, Value.vStr "y"], [Value.vInt 1, Value.vStr "z"],
          [Value.vInt 3, Value.vStr "x"]]]) ∧
    (Process ⟨["a"], true⟩ initState exampleBlock).map
        (fun r => (r.1, r.2.cache.map (fun e => e.2.rows))) =
      some (Except.ok (),
        [[[Value.vInt 3, Value.vStr "x"], [Value.vInt 1, Value.vStr "y"],
          [Value.vInt 1, Value.vStr "z"]]]) :=
  ⟨rfl, rfl⟩

/-- C3: when the (possibly reordered) key of the incoming block already has
a builder in the cache, `Process` returns the duplicate-key error (carrying
the block's original key) and the node's state is unchanged. -/
theorem sort_duplicate_key_error (t : SortConfig) (s : SortState) (b : Block)
    (k : PartitionKey) (bl : Builder)
    (h1 : processKey t.cols b.Key = some k)
    (h2 : cacheLookup s.cache k = some bl) :
    Process t s b = some (Except.error (SortError.duplicateKey b.Key), s) := by
  unfold Process
  rw [h1, Option.map_some', h2]

/-- C3 witness: processing the example block a second time over the state
left by the first call fails with the duplicate-key error and leaves the
state unchanged. -/
theorem sort_duplicate_key_error_witness :
    Process ⟨["a"], false⟩ stateAfterFirst exampleBlock =
      some (Except.error (SortError.duplicateKey exampleBlock.Key),
        stateAfterFirst) :=
  sort_duplicate_key_error ⟨["a"], false⟩ stateAfterFirst exampleBlock
    exampleBlock.Key exampleBuilderAsc rfl rfl

/-- C4: with parent resolution succeeding and both the `cols` and `desc`
arguments absent, `createSortOpSpec` succeeds with the single canonical
default value-column label, ascending. -/
theorem createSortOpSpec_defaults (addParent : Except String Unit)
    (args : Arguments) (hp : addParent = Except.ok ())
    (hc : args.getArrayCols = Except.ok none)
    (hd : args.getBoolDesc = Except.ok none) :
    createSortOpSpec addParent args =
      Except.ok ⟨[DefaultValueColLabel], false⟩ := by
  unfold createSortOpSpec
  rw [hp, hc, hd]

/-- C4 witness: the defaults at a concrete argument set. -/
theorem createSortOpSpec_defaults_witness :
    createSortOpSpec (Except.ok ()) ⟨Except.ok none, Except.ok none⟩ =
      Except.ok ⟨[DefaultValueColLabel], false⟩ :=
  createSortOpSpec_defaults (Except.ok ()) ⟨Except.ok none, Except.ok none⟩
    rfl rfl rfl

/-- C6: each lifecycle call on the node performs exactly one call on its
Dataset with identical arguments and returns the Dataset's own result; in
particular `RetractBlock` forwards the original key as given, never a
reordered key. -/
theorem sort_lifecycle_forwarding (d : Dataset) (id : DatasetID)
    (key : PartitionKey) (mark pt : Time) (err : Option SortError) :
    RetractBlock d id key = (d.retractBlock key, [DatasetCall.retractBlock key]) ∧
    UpdateWatermark d id mark =
      (d.updateWatermark mark, [DatasetCall.updateWatermark mark]) ∧
    UpdateProcessingTime d id pt =
      (d.updateProcessingTime pt, [DatasetCall.updateProcessingTime pt]) ∧
    Finish d id err = (d.finish err, [DatasetCall.finish err]) :=
  ⟨rfl, rfl, rfl, rfl⟩

/-- C8: `newSortProcedure` succeeds exactly on the sort operation's concrete
kind, copying the column list and direction, and fails with the
"invalid spec type" error on every other kind. -/
theorem newSortProcedure_invalid_spec (s : SortOpSpec) (kind : String) :
    newSortProcedure (OperationSpec.sort s) = Except.ok ⟨s.Cols, s.Desc⟩ ∧
    newSortProcedure (OperationSpec.other kind) =
      Except.error ("invalid spec type " ++ kind) :=
  ⟨rfl, rfl⟩

/-- C7: `Copy` preserves the column list and direction, and the copy's
column-list storage is independent: mutating any element through the copy's
reference leaves the original's column list unchanged, and mutating through
the original's reference leaves the copy's column list unchanged. -/
theorem sortProcedureSpec_copy_independent (h : Heap)
    (s : SortProcedureSpecRef) (hv : s.colsRef < h.arrays.length) :
    specCols (SortProcedureSpecRef.Copy h s).1 (SortProcedureSpecRef.Copy h s).2 =
      specCols h s ∧
    (SortProcedureSpecRef.Copy h s).2.desc = s.desc ∧
    (∀ i v, specCols
        (heapSet (SortProcedureSpecRef.Copy h s).1
          (SortProcedureSpecRef.Copy h s).2.colsRef i v) s = specCols h s) ∧
    (∀ i v, specCols (heapSet (SortProcedureSpecRef.Copy h s).1 s.colsRef i v)
        (SortProcedureSpecRef.Copy h s).2 =
      specCols (SortProcedureSpecRef.Copy h s).1
        (SortProcedureSpecRef.Copy h s).2) := by
  have hne : s.colsRef ≠ h.arrays.length := Nat.ne_of_lt hv
  refine ⟨?_, rfl, ?_, ?_⟩
  · show (h.arrays ++ [h.arrays.getD s.colsRef []]).getD h.arrays.length [] =
      specCols h s
    rw [List.getD_append_right _ _ _ _ (Nat.le_refl _), Nat.sub_self]
    rfl
  · intro i v
    show ((h.arrays ++ [h.arrays.getD s.colsRef []]).set h.arrays.length _).getD
        s.colsRef [] = h.arrays.getD s.colsRef []
    rw [List.getD_eq_getElem?_getD, List.getElem?_set_ne (Ne.symm hne),
      ← List.getD_eq_getElem?_getD, List.getD_append _ _ _ _ hv]
  · intro i v
    show ((h.arrays ++ [h.arrays.getD s.colsRef []]).set s.colsRef _).getD
        h.arrays.length [] =
      (h.arrays ++ [h.arrays.getD s.colsRef []]).getD h.arrays.length []
    rw [List.getD_eq_getElem?_getD, List.getElem?_set_ne hne,
      ← List.getD_eq_getElem?_getD]

/-- C7 witness: copy independence at a concrete heap and spec. -/
theorem sortProcedureSpec_copy_independent_witness :
    specCols (SortProcedureSpecRef.Copy ⟨[["a", "b"]]⟩ ⟨0, false⟩).1
        (SortProcedureSpecRef.Copy ⟨[["a", "b"]]⟩ ⟨0, false⟩).2 =
      specCols ⟨[["a", "b"]]⟩ ⟨0, false⟩ ∧
    specCols
        (heapSet (SortProcedureSpecRef.Copy ⟨[["a", "b"]]⟩ ⟨0, false⟩).1
          (SortProcedureSpecRef.Copy ⟨[["a", "b"]]⟩ ⟨0, false⟩).2.colsRef 0 "c")
        ⟨0, false⟩ =
      specCols ⟨[["a", "b"]]⟩ ⟨0, false⟩ :=
  ⟨(sortProcedureSpec_copy_independent ⟨[["a", "b"]]⟩ ⟨0, false⟩
      (by decide)).1,
    (sortProcedureSpec_copy_independent ⟨[["a", "b"]]⟩ ⟨0, false⟩
      (by decide)).2.2.1 0 "c"⟩

/-- Helper: taking a prefix of an identity mapping yields the shorter
identity mapping. -/
theorem take_identity_map (L ncols : Nat) (h : ncols ≤ L) :
    ((List.range L).map Int.ofNat).take ncols =
      (List.range ncols).map Int.ofNat := by
  rw [← List.map_take, List.take_range, Nat.min_eq_left h]

/-- C10: the column-map buffer passed to the bulk row-append helper is
always the identity mapping of length equal to the builder's column count:
the invariant holds initially, `updateColMap` maintains it while producing
an identity view (reallocating only when growing, re-slicing when
shrinking), and `Process` preserves it across any sequence of blocks. -/
theorem sort_colMap_identity :
    ColMapInv initColMap ∧
    (∀ cm ncols, ColMapInv cm →
      ColMapInv (updateColMap cm ncols) ∧
      colMapView (updateColMap cm ncols) = (List.range ncols).map Int.ofNat ∧
      (ncols ≤ cm.backing.length → (updateColMap cm ncols).backing = cm.backing)) ∧
    (∀ t s b r s', Process t s b = some (r, s') →
      ColMapInv s.colMap → ColMapInv s'.colMap) := by
  have hupd : ∀ cm ncols, ColMapInv cm →
      ColMapInv (updateColMap cm ncols) ∧
      colMapView (updateColMap cm ncols) = (List.range ncols).map Int.ofNat ∧
      (ncols ≤ cm.backing.length → (updateColMap cm ncols).backing = cm.backing) := by
    intro cm ncols hinv
    unfold updateColMap
    by_cases hlt : cm.backing.length < ncols
    · simp only [hlt, if_true]
      refine ⟨⟨by simp, by simp⟩, ?_,
        fun hle => absurd hle (Nat.not_le_of_lt hlt)⟩
      show ((List.range ncols).map Int.ofNat).take ncols = _
      exact take_identity_map ncols ncols (Nat.le_refl _)
    · simp only [hlt, if_false]
      have hle : ncols ≤ cm.backing.length := Nat.le_of_not_lt hlt
      refine ⟨⟨hinv.1, hle⟩, ?_, by simp⟩
      show cm.backing.take ncols = _
      calc cm.backing.take ncols
          = ((List.range cm.backing.length).map Int.ofNat).take ncols := by
            rw [← hinv.1]
        _ = (List.range ncols).map Int.ofNat := take_identity_map _ _ hle
  refine ⟨⟨rfl, Nat.le_refl 0⟩, hupd, ?_⟩
  intro t s b r s' hp hinv
  unfold Process at hp
  rcases Option.map_eq_some'.mp hp with ⟨key, hk, heq⟩
  cases hc : cacheLookup s.cache key with
  | some bl =>
    rw [hc] at heq
    have h2 : s = s' := congrArg Prod.snd heq
    rw [← h2]; exact hinv
  | none =>
    rw [hc] at heq
    have h2 : updateColMap s.colMap (AddBlockCols b ⟨[], []⟩).NCols = s'.colMap :=
      congrArg (fun p => p.2.colMap) heq
    rw [← h2]
    exact (hupd _ _ hinv).1

/-- C10 witness: shrinking from capacity 3 to 2 re-slices to the identity
mapping of length 2. -/
theorem sort_colMap_identity_witness :
    colMapView (updateColMap ⟨(List.range 3).map Int.ofNat, 3⟩ 2) =
      (List.range 2).map Int.ofNat :=
  (sort_colMap_identity.2.1 ⟨(List.range 3).map Int.ofNat, 3⟩ 2
    (by constructor <;> decide)).2.1

/-- Helper: congruence for `Option.bind` on the continuation. -/
theorem optionBind_congr {s : Option SKState} {f g : SKState → Option SKState}
    (h : ∀ x, f x = g x) : s.bind f = s.bind g := by
  cases s with
  | none => rfl
  | some x => exact h x

/-- Helper: taking one past an in-bounds `set` position splits off the
written element. -/
theorem take_succ_set {α : Type} :
    ∀ (l : List α) (j : Nat) (x : α), j < l.length →
      (l.set j x).take (j + 1) = l.take j ++ [x]
  | [], j, _, h => absurd h (Nat.not_lt_zero j)
  | _ :: _, 0, _, _ => rfl
  | a :: t, j + 1, x, h => by
    show a :: (t.set j x).take (j + 1) = (a :: t.take j) ++ [x]
    rw [take_succ_set t j x (Nat.lt_of_succ_lt_succ h)]
    rfl

/-- Helper: dropping past a `set` position ignores the write. -/
theorem drop_set_of_lt {α : Type} :
    ∀ (l : List α) (j m : Nat) (x : α), j < m →
      (l.set j x).drop m = l.drop m
  | [], _, _, _, _ => rfl
  | _ :: t, 0, m, x, h => by
    obtain ⟨m', rfl⟩ := Nat.exists_eq_add_of_lt h
    rfl
  | a :: t, j + 1, m, x, h => by
    obtain ⟨m', rfl⟩ : ∃ m', m = m' + 1 :=
      ⟨m - 1, by omega⟩
    show (t.set j x).drop m' = t.drop m'
    exact drop_set_of_lt t j m' x (Nat.lt_of_succ_lt_succ h)

/-- Helper: a write sequence splits at an append. -/
theorem skWriteAll_append :
    ∀ (ws1 ws2 : List (ColMeta × Value)) (s : SKState),
      skWriteAll (ws1 ++ ws2) s = (skWriteAll ws1 s).bind (skWriteAll ws2)
  | [], _, _ => rfl
  | cv :: ws1, ws2, s => by
    show (skWrite s cv.1 cv.2).bind (skWriteAll (ws1 ++ ws2)) =
      ((skWrite s cv.1 cv.2).bind (skWriteAll ws1)).bind (skWriteAll ws2)
    cases skWrite s cv.1 cv.2 with
    | none => rfl
    | some s' => exact skWriteAll_append ws1 ws2 s'

/-- Helper: a write sequence that fits inside the arrays succeeds, advances
`j` by its length, and overwrites exactly the slots it covers. -/
theorem skWriteAll_ok :
    ∀ (ws : List (ColMeta × Value)) (s : SKState),
      s.cols.length = s.vs.length → s.j + ws.length ≤ s.cols.length →
      skWriteAll ws s = some ⟨
        s.cols.take s.j ++ ws.map Prod.fst ++ s.cols.drop (s.j + ws.length),
        s.vs.take s.j ++ ws.map Prod.snd ++ s.vs.drop (s.j + ws.length),
        s.j + ws.length⟩
  | [], s, _, _ => by
    simp [skWriteAll]
  | (c, v) :: ws, s, hlen, hle => by
    simp only [List.length_cons] at hle
    have hc : s.j < s.cols.length := by omega
    have hv : s.j < s.vs.length := by omega
    show (skWrite s c v).bind (skWriteAll ws) = _
    unfold skWrite
    rw [if_pos hc, if_pos hv]
    show skWriteAll ws ⟨s.cols.set s.j c, s.vs.set s.j v, s.j + 1⟩ = _
    rw [skWriteAll_ok ws ⟨s.cols.set s.j c, s.vs.set s.j v, s.j + 1⟩
      (by simp [hlen]) (by simp only [List.length_set]; omega)]
    have harith : s.j + 1 + ws.length = s.j + (ws.length + 1) := by omega
    rw [take_succ_set s.cols s.j c hc, take_succ_set s.vs s.j v hv,
      drop_set_of_lt s.cols s.j (s.j + 1 + ws.length) c (by omega),
      drop_set_of_lt s.vs s.j (s.j + 1 + ws.length) v (by omega),
      harith]
    simp [List.append_assoc]

/-- Helper: the first loop of `sortedKey` performs exactly its write list. -/
theorem sortedKeyLoop1_eq (key : PartitionKey) :
    ∀ (ls : List String) (s : SKState),
      sortedKeyLoop1 key ls s = skWriteAll (keySortWrites key ls) s
  | [], _ => rfl
  | label :: rest, s => by
    simp only [sortedKeyLoop1, keySortWrites]
    split
    · show _ = (skWrite s _ _).bind (skWriteAll (keySortWrites key rest))
      exact optionBind_congr (fun s' => sortedKeyLoop1_eq key rest s')
    · exact sortedKeyLoop1_eq key rest s

/-- Helper: the second loop of `sortedKey` performs exactly its write
list. -/
theorem sortedKeyLoop2_eq (tcols : List String) (key : PartitionKey) :
    ∀ (cs : List ColMeta) (idx : Nat) (s : SKState),
      sortedKeyLoop2 tcols key idx cs s =
        skWriteAll (keyRestWrites tcols key idx cs) s
  | [], _, _ => rfl
  | c :: cs, idx, s => by
    simp only [sortedKeyLoop2, keyRestWrites]
    split
    · exact sortedKeyLoop2_eq tcols key cs (idx + 1) s
    · show _ = (skWrite s _ _).bind (skWriteAll (keyRestWrites tcols key (idx + 1) cs))
      exact optionBind_congr (fun s' => sortedKeyLoop2_eq tcols key cs (idx + 1) s')

/-- Helper: `sortedKey` is the single write sequence of both loops run on
freshly allocated arrays. -/
theorem sortedKeyState_eq (tcols : List String) (key : PartitionKey) :
    sortedKeyState tcols key =
      skWriteAll (keySortWrites key tcols ++ keyRestWrites tcols key 0 key.Cols)
        ⟨List.replicate key.Cols.length zeroColMeta,
          List.replicate key.Cols.length Value.vNull, 0⟩ := by
  show (sortedKeyLoop1 key tcols
      ⟨List.replicate key.Cols.length zeroColMeta,
        List.replicate key.Cols.length Value.vNull, 0⟩).bind
      (sortedKeyLoop2 tcols key 0 key.Cols) = _
  rw [sortedKeyLoop1_eq, skWriteAll_append]
  exact optionBind_congr (fun s' => sortedKeyLoop2_eq tcols key key.Cols 0 s')

/-- Helper: `ColIdx` is non-negative exactly when the label occurs among the
column labels. -/
theorem colIdx_nonneg_iff (l : String) :
    ∀ cols : List ColMeta, 0 ≤ ColIdx l cols ↔ l ∈ cols.map ColMeta.Label
  | [] => by
    show (0:Int) ≤ -1 ↔ l ∈ List.map ColMeta.Label []
    simp
  | c :: cs => by
    have ih := colIdx_nonneg_iff l cs
    simp only [ColIdx, List.map_cons, List.mem_cons]
    cases hb : c.Label == l with
    | true =>
      simp only [hb, if_true]
      exact iff_of_true (by omega) (Or.inl (beq_iff_eq.mp hb).symm)
    | false =>
      simp only [hb, Bool.false_eq_true, if_false]
      have hne : ¬ (l = c.Label) := fun e => by
        rw [e] at hb; simp at hb
      by_cases h2 : (0:Int) ≤ ColIdx l cs
      · rw [if_pos h2]
        exact iff_of_true (by omega) (Or.inr (ih.mp h2))
      · rw [if_neg h2]
        exact iff_of_false (by omega)
          (fun hor => hor.elim hne (fun hm => h2 (ih.mpr hm)))

/-- Helper: `ContainsStr` decides list membership. -/
theorem containsStr_iff (strs : List String) (str : String) :
    ContainsStr strs str = true ↔ str ∈ strs := by
  simp only [ContainsStr, List.any_eq_true, beq_iff_eq]
  constructor
  · rintro ⟨x, hx, rfl⟩
    exact hx
  · intro h
    exact ⟨str, h, rfl⟩

/-- Helper: the first loop writes once per sort label that is a key
column. -/
theorem keySortWrites_length (key : PartitionKey) :
    ∀ ls : List String,
      (keySortWrites key ls).length =
        (ls.filter (fun l => decide (0 ≤ ColIdx l key.Cols))).length
  | [] => rfl
  | label :: rest => by
    simp only [keySortWrites, List.filter_cons]
    by_cases h : (0:Int) ≤ ColIdx label key.Cols
    · rw [if_pos h, if_pos (decide_eq_true h)]
      simp only [List.length_cons, keySortWrites_length key rest]
    · rw [if_neg h, if_neg (by simpa using h)]
      exact keySortWrites_length key rest

/-- Helper: the second loop writes once per key column that is not a sort
column. -/
theorem keyRestWrites_length (tcols : List String) (key : PartitionKey) :
    ∀ (cs : List ColMeta) (idx : Nat),
      (keyRestWrites tcols key idx cs).length =
        (cs.filter (fun c => !(ContainsStr tcols c.Label))).length
  | [], _ => rfl
  | c :: cs, idx => by
    simp only [keyRestWrites, List.filter_cons]
    cases hb : ContainsStr tcols c.Label with
    | true =>
      simp only [hb, if_true, Bool.not_true, Bool.false_eq_true, if_false]
      exact keyRestWrites_length tcols key cs (idx + 1)
    | false =>
      simp only [hb, Bool.false_eq_true, if_false, Bool.not_false, if_true,
        List.length_cons, keyRestWrites_length tcols key cs (idx + 1)]

/-- Helper: for duplicate-free lists, the elements of the first that lie in
the second are equinumerous with the elements of the second that lie in the
first. -/
theorem length_filter_mem_comm (L1 L2 : List String) (p q : String → Bool)
    (hp : ∀ a, p a = true ↔ a ∈ L2) (hq : ∀ a, q a = true ↔ a ∈ L1)
    (h1 : L1.Nodup) (h2 : L2.Nodup) :
    (L1.filter p).length = (L2.filter q).length := by
  rw [← List.toFinset_card_of_nodup (h1.filter p),
    ← List.toFinset_card_of_nodup (h2.filter q),
    List.toFinset_filter, List.toFinset_filter]
  have e1 : L1.toFinset.filter (fun a => p a) = L1.toFinset ∩ L2.toFinset := by
    ext a
    simp [Finset.mem_filter, Finset.mem_inter, List.mem_toFinset, hp]
  have e2 : L2.toFinset.filter (fun a => q a) = L2.toFinset ∩ L1.toFinset := by
    ext a
    simp [Finset.mem_filter, Finset.mem_inter, List.mem_toFinset, hq]
  rw [e1, e2, Finset.inter_comm]

/-- Helper: filtering a list of columns by a predicate on labels has the
same length as filtering the label list. -/
theorem length_filter_label (cols : List ColMeta) (q : String → Bool) :
    (cols.filter (fun c => q c.Label)).length =
      ((cols.map ColMeta.Label).filter q).length := by
  rw [List.filter_map]
  simp only [List.length_map]
  rfl

/-- Helper: with duplicate-free sort labels and key labels, the two loops
together perform exactly one write per key column. -/
theorem sortedKey_writes_length (tcols : List String) (key : PartitionKey)
    (ht : tcols.Nodup) (hk : (key.Cols.map ColMeta.Label).Nodup) :
    (keySortWrites key tcols).length +
      (keyRestWrites tcols key 0 key.Cols).length = key.Cols.length := by
  rw [keySortWrites_length, keyRestWrites_length]
  have e1 : (tcols.filter (fun l => decide (0 ≤ ColIdx l key.Cols))).length =
      ((key.Cols.map ColMeta.Label).filter (fun lb => ContainsStr tcols lb)).length := by
    refine length_filter_mem_comm tcols (key.Cols.map ColMeta.Label) _ _
      (fun a => ?_) (fun a => containsStr_iff tcols a) ht hk
    rw [decide_eq_true_eq]
    exact colIdx_nonneg_iff a key.Cols
  have e2 : (key.Cols.filter (fun c => !(ContainsStr tcols c.Label))).length =
      ((key.Cols.map ColMeta.Label).filter (fun lb => !(ContainsStr tcols lb))).length :=
    length_filter_label key.Cols (fun lb => !(ContainsStr tcols lb))
  rw [e1, e2]
  have hperm := List.filter_append_perm (fun lb => ContainsStr tcols lb)
    (key.Cols.map ColMeta.Label)
  have hpl := hperm.length_eq
  rw [List.length_append] at hpl
  rw [← List.length_map key.Cols ColMeta.Label]
  exact hpl

/-- C9: with pairwise-distinct sort-column labels and pairwise-distinct key
column labels, every write of `sortedKey` into its two freshly allocated
arrays stays in bounds (no panic), and the final write index equals the
number of key columns, so the returned key is fully populated. -/
theorem sortedKey_writes_in_bounds (tcols : List String) (key : PartitionKey)
    (ht : tcols.Nodup) (hk : (key.Cols.map ColMeta.Label).Nodup) :
    ∃ s, sortedKeyState tcols key = some s ∧ s.j = key.Cols.length := by
  have hlen := sortedKey_writes_length tcols key ht hk
  rw [sortedKeyState_eq]
  rw [skWriteAll_ok _ _ (by simp)
    (by simp only [List.length_replicate, List.length_append, Nat.zero_add]
        exact Nat.le_of_eq hlen)]
  refine ⟨_, rfl, ?_⟩
  show 0 + (keySortWrites key tcols ++ keyRestWrites tcols key 0 key.Cols).length =
    key.Cols.length
  rw [Nat.zero_add, List.length_append, hlen]

/-- C9 witness: a concrete two-column key, sorted by one of its columns,
fills both arrays exactly. -/
theorem sortedKey_writes_in_bounds_witness :
    ∃ s, sortedKeyState ["b"] witnessKey = some s ∧
      s.j = witnessKey.Cols.length :=
  sortedKey_writes_in_bounds ["b"] witnessKey (by decide) (by decide)

/-- Helper: the head of a dropped suffix is the element at that index. -/
theorem getD_of_drop_cons {α : Type} (d : α) :
    ∀ (l : List α) (idx : Nat) (v : α) (tl : List α),
      l.drop idx = v :: tl → l.getD idx d = v
  | [], idx, _, _, h => by simp at h
  | a :: t, 0, v, tl, h => by
    rw [List.drop_zero] at h
    cases h
    rfl
  | a :: t, idx + 1, v, tl, h => by
    show t.getD idx d = v
    exact getD_of_drop_cons d t idx v tl h

/-- Helper: looking a label up through `ColIdx` agrees with `find?` on the
index-aligned (column, value) pairs. -/
theorem colIdx_write_eq_find? (l : String) :
    ∀ (cols : List ColMeta) (vs : List Value), vs.length = cols.length →
      (if 0 ≤ ColIdx l cols then
        some (cols.getD (ColIdx l cols).toNat zeroColMeta,
          vs.getD (ColIdx l cols).toNat Value.vNull)
      else none)
        = (cols.zip vs).find? (fun cv => cv.1.Label == l)
  | [], vs, h => by
    rw [if_neg (by show ¬ (0:Int) ≤ -1; omega)]
    rw [List.eq_nil_of_length_eq_zero h]
    rfl
  | c :: cs, [], h => by simp at h
  | c :: cs, v :: vv, h => by
    have hlen : vv.length = cs.length := by simpa using h
    have ih := colIdx_write_eq_find? l cs vv hlen
    simp only [ColIdx, List.zip_cons_cons]
    cases hb : c.Label == l with
    | true =>
      rw [List.find?_cons_of_pos _ (by exact hb)]
      simp only [hb, if_true]
      rw [if_pos (by omega : (0:Int) ≤ 0)]
      rfl
    | false =>
      rw [List.find?_cons_of_neg _ (by simp [hb])]
      simp only [hb, Bool.false_eq_true, if_false]
      by_cases h2 : (0:Int) ≤ ColIdx l cs
      · obtain ⟨n, hn⟩ : ∃ n : Nat, ColIdx l cs = (n : Int) :=
          ⟨(ColIdx l cs).toNat, (Int.toNat_of_nonneg h2).symm⟩
        rw [hn] at ih ⊢
        rw [if_pos (by omega : (0:Int) ≤ n)] at ih
        rw [if_pos (by omega : (0:Int) ≤ n), if_pos (by omega : (0:Int) ≤ (n:Int) + 1)]
        have ht : ((n:Int) + 1).toNat = (n:Int).toNat + 1 := by omega
        rw [ht]
        simp only [List.getD_cons_succ]
        exact ih
      · rw [if_neg h2] at ih
        rw [if_neg h2, if_neg (by omega : ¬ (0:Int) ≤ -1)]
        exact ih

/-- Helper: the second loop's write list is the filtered tail of the
index-aligned pairs. -/
theorem keyRestWrites_eq (tcols : List String) (key : PartitionKey) :
    ∀ (cs : List ColMeta) (idx : Nat) (vtail : List Value),
      key.vs.drop idx = vtail → vtail.length = cs.length →
      keyRestWrites tcols key idx cs =
        (cs.zip vtail).filter (fun cv => !(ContainsStr tcols cv.1.Label))
  | [], _, _, _, _ => rfl
  | c :: cs, idx, [], _, hlen => by simp at hlen
  | c :: cs, idx, v :: vv, hdrop, hlen => by
    have hv : key.value idx = v := getD_of_drop_cons Value.vNull key.vs idx v vv hdrop
    have hdrop' : key.vs.drop (idx + 1) = vv := by
      have h1 : (key.vs.drop idx).drop 1 = key.vs.drop (idx + 1) := List.drop_drop 1 idx key.vs
      rw [← h1, hdrop]
      rfl
    have hlen' : vv.length = cs.length := by simpa using hlen
    simp only [keyRestWrites, List.zip_cons_cons, List.filter_cons]
    cases hb : ContainsStr tcols c.Label with
    | true =>
      simp only [hb, if_true, Bool.not_true, Bool.false_eq_true, if_false]
      exact keyRestWrites_eq tcols key cs (idx + 1) vv hdrop' hlen'
    | false =>
      simp only [hb, Bool.false_eq_true, if_false, Bool.not_false, if_true]
      rw [hv]
      exact congrArg (List.cons _)
        (keyRestWrites_eq tcols key cs (idx + 1) vv hdrop' hlen')

/-- Helper: the first loop's write list is the spec's `filterMap` over the
configured sort labels. -/
theorem keySortWrites_eq_filterMap (key : PartitionKey)
    (hw : key.vs.length = key.Cols.length) :
    ∀ ls : List String,
      keySortWrites key ls =
        ls.filterMap (fun l => (keyPairs key).find? (fun cv => cv.1.Label == l))
  | [] => rfl
  | label :: rest => by
    have ih := keySortWrites_eq_filterMap key hw rest
    have hpt : (if 0 ≤ ColIdx label key.Cols then
          some (key.Cols.getD (ColIdx label key.Cols).toNat zeroColMeta,
            key.vs.getD (ColIdx label key.Cols).toNat Value.vNull)
        else none) =
        (keyPairs key).find? (fun cv => cv.1.Label == label) :=
      colIdx_write_eq_find? label key.Cols key.vs hw
    by_cases h : (0:Int) ≤ ColIdx label key.Cols
    · rw [if_pos h] at hpt
      simp only [keySortWrites]
      rw [if_pos h, List.filterMap_cons, ← hpt]
      exact congrArg (List.cons _) ih
    · rw [if_neg h] at hpt
      simp only [keySortWrites]
      rw [if_neg h, List.filterMap_cons, ← hpt]
      exact ih

/-- Helper: zipping the projected components reassembles a pair list. -/
theorem zip_map_fst_snd' {α β : Type} (l : List (α × β)) :
    (l.map Prod.fst).zip (l.map Prod.snd) = l := by
  have h := List.unzip_eq_map l
  have h1 : l.unzip.1 = l.map Prod.fst := congrArg Prod.fst h
  have h2 : l.unzip.2 = l.map Prod.snd := congrArg Prod.snd h
  rw [← h1, ← h2, List.zip_unzip]

/-- Helper: filtering through a projected predicate preserves length. -/
theorem length_filter_comp {α β : Type} (l : List α) (f : α → β) (q : β → Bool) :
    (l.filter (fun x => q (f x))).length = ((l.map f).filter q).length := by
  rw [List.filter_map]
  simp only [List.length_map]
  rfl

/-- Helper: the labels of the spec's reordered sort part are the sort labels
that found a key pair. -/
theorem part1_labels (tcols : List String) (key : PartitionKey) :
    (tcols.filterMap
        (fun l => (keyPairs key).find? (fun cv => cv.1.Label == l))).map
      (fun cv => cv.1.Label) =
      tcols.filter
        (fun l => ((keyPairs key).find? (fun cv => cv.1.Label == l)).isSome) := by
  induction tcols with
  | nil => rfl
  | cons label rest ih =>
    simp only [List.filterMap_cons, List.filter_cons]
    cases hf : (keyPairs key).find? (fun cv => cv.1.Label == label) with
    | none =>
      simp only [hf, Option.isSome_none, Bool.false_eq_true, if_false]
      exact ih
    | some y =>
      simp only [hf, Option.isSome_some, if_true, List.map_cons]
      have hpr := List.find?_some hf
      rw [beq_iff_eq.mp hpr, ih]

/-- Helper: under the well-formedness and duplicate-freeness hypotheses, the
spec's reordered pair list is a permutation of the original key pairs. -/
theorem specSortedPairs_perm (tcols : List String) (key : PartitionKey)
    (hw : key.vs.length = key.Cols.length)
    (ht : tcols.Nodup) (hk : (key.Cols.map ColMeta.Label).Nodup) :
    (specSortedPairs tcols key).Perm (keyPairs key) := by
  unfold specSortedPairs
  have hq := List.filter_append_perm
    (fun cv => ContainsStr tcols cv.1.Label) (keyPairs key)
  refine List.Perm.trans (List.Perm.append ?_ (List.Perm.refl _)) hq
  have hlabels : (keyPairs key).map (fun cv => cv.1.Label) =
      key.Cols.map ColMeta.Label := by
    show (key.Cols.zip key.vs).map (fun cv => cv.1.Label) = _
    rw [show (fun cv : ColMeta × Value => cv.1.Label) =
        ColMeta.Label ∘ Prod.fst from rfl,
      ← List.map_map, List.map_fst_zip _ _ (Nat.le_of_eq hw.symm)]
  have hp : ∀ a,
      (((keyPairs key).find? (fun cv => cv.1.Label == a)).isSome) = true ↔
        a ∈ key.Cols.map ColMeta.Label := by
    intro a
    rw [← hlabels]
    simp [List.find?_isSome, List.mem_map, beq_iff_eq]
  have hnd : (tcols.filterMap
      (fun l => (keyPairs key).find? (fun cv => cv.1.Label == l))).Nodup := by
    apply List.Nodup.of_map (fun cv : ColMeta × Value => cv.1.Label)
    rw [part1_labels]
    exact ht.filter _
  have hsub : ∀ x ∈ tcols.filterMap
      (fun l => (keyPairs key).find? (fun cv => cv.1.Label == l)),
      x ∈ (keyPairs key).filter (fun cv => ContainsStr tcols cv.1.Label) := by
    intro x hx
    rw [List.mem_filterMap] at hx
    obtain ⟨l, hl, hfind⟩ := hx
    rw [List.mem_filter]
    refine ⟨List.mem_of_find?_eq_some hfind, ?_⟩
    have hpr := List.find?_some hfind
    rw [containsStr_iff, beq_iff_eq.mp hpr]
    exact hl
  have hlen1 : (tcols.filterMap
      (fun l => (keyPairs key).find? (fun cv => cv.1.Label == l))).length =
      (tcols.filter
        (fun l => ((keyPairs key).find? (fun cv => cv.1.Label == l)).isSome)).length := by
    rw [← part1_labels tcols key, List.length_map]
  have hlen2 : ((keyPairs key).filter
      (fun cv => ContainsStr tcols cv.1.Label)).length =
      (tcols.filter
        (fun l => ((keyPairs key).find? (fun cv => cv.1.Label == l)).isSome)).length := by
    rw [length_filter_comp (keyPairs key) (fun cv => cv.1.Label)
      (fun lb => ContainsStr tcols lb), hlabels]
    exact (length_filter_mem_comm tcols (key.Cols.map ColMeta.Label) _ _
      hp (fun a => containsStr_iff tcols a) ht hk).symm
  exact (List.subperm_of_subset hnd hsub).perm_of_length_le
    (Nat.le_of_eq (hlen2.trans hlen1.symm))

/-- Helper: the key-selection loop reaches `sortedKey` as soon as some
scanned label is a key column. -/
theorem processKeyLoop_of_col (tcols : List String) (key : PartitionKey) :
    ∀ rest, (∃ l ∈ rest, key.HasCol l = true) →
      processKeyLoop tcols key rest = sortedKey tcols key
  | [], h => absurd h (by simp)
  | label :: rest, h => by
    unfold processKeyLoop
    by_cases hb : key.HasCol label
    · rw [if_pos hb]
    · rw [if_neg hb]
      refine processKeyLoop_of_col tcols key rest ?_
      obtain ⟨l, hl, hcol⟩ := h
      cases List.mem_cons.mp hl with
      | inl e => exact absurd (e ▸ hcol) hb
      | inr hm => exact ⟨l, hm, hcol⟩

/-- C1 (amended): for a well-formed key (one value per column) whose column
labels are pairwise distinct, and pairwise-distinct configured sort columns
sharing at least one label with the key, `Process` replaces the key by
`sortedKey`, whose (column, value) pairs are exactly the configured sort
columns that are key columns in configured order followed by the remaining
key columns in original order, each keeping its value; the result is a
permutation of the input key's pairs. -/
theorem sort_key_reorder (tcols : List String) (key : PartitionKey)
    (hw : key.vs.length = key.Cols.length)
    (ht : tcols.Nodup) (hk : (key.Cols.map ColMeta.Label).Nodup)
    (hs : tcols.any key.HasCol = true) :
    ∃ k', processKey tcols key = some k' ∧
      keyPairs k' = specSortedPairs tcols key ∧
      (keyPairs k').Perm (keyPairs key) := by
  have hlen := sortedKey_writes_length tcols key ht hk
  have hok := skWriteAll_ok
    (keySortWrites key tcols ++ keyRestWrites tcols key 0 key.Cols)
    ⟨List.replicate key.Cols.length zeroColMeta,
      List.replicate key.Cols.length Value.vNull, 0⟩
    (by simp)
    (by simp only [List.length_replicate, List.length_append, Nat.zero_add]
        exact Nat.le_of_eq hlen)
  have hcols : (List.replicate key.Cols.length zeroColMeta).take 0 ++
      (keySortWrites key tcols ++ keyRestWrites tcols key 0 key.Cols).map Prod.fst ++
      (List.replicate key.Cols.length zeroColMeta).drop
        (0 + (keySortWrites key tcols ++ keyRestWrites tcols key 0 key.Cols).length) =
      (keySortWrites key tcols ++ keyRestWrites tcols key 0 key.Cols).map Prod.fst := by
    rw [List.take_zero, Nat.zero_add, List.length_append, hlen,
      List.drop_of_length_le (by simp), List.nil_append, List.append_nil]
  have hvs : (List.replicate key.Cols.length Value.vNull).take 0 ++
      (keySortWrites key tcols ++ keyRestWrites tcols key 0 key.Cols).map Prod.snd ++
      (List.replicate key.Cols.length Value.vNull).drop
        (0 + (keySortWrites key tcols ++ keyRestWrites tcols key 0 key.Cols).length) =
      (keySortWrites key tcols ++ keyRestWrites tcols key 0 key.Cols).map Prod.snd := by
    rw [List.take_zero, Nat.zero_add, List.length_append, hlen,
      List.drop_of_length_le (by simp), List.nil_append, List.append_nil]
  have hsk : sortedKey tcols key = some
      ⟨(keySortWrites key tcols ++ keyRestWrites tcols key 0 key.Cols).map Prod.fst,
        (keySortWrites key tcols ++ keyRestWrites tcols key 0 key.Cols).map Prod.snd⟩ := by
    unfold sortedKey
    rw [sortedKeyState_eq, hok, Option.map_some']
    exact congrArg some (congrArg₂ PartitionKey.mk hcols hvs)
  have hproc : processKey tcols key = sortedKey tcols key := by
    obtain ⟨l, hl, hcol⟩ := List.any_eq_true.mp hs
    exact processKeyLoop_of_col tcols key tcols ⟨l, hl, hcol⟩
  have hpairs : keyPairs
      ⟨(keySortWrites key tcols ++ keyRestWrites tcols key 0 key.Cols).map Prod.fst,
        (keySortWrites key tcols ++ keyRestWrites tcols key 0 key.Cols).map Prod.snd⟩ =
      specSortedPairs tcols key := by
    show ((keySortWrites key tcols ++ keyRestWrites tcols key 0 key.Cols).map Prod.fst).zip
        ((keySortWrites key tcols ++ keyRestWrites tcols key 0 key.Cols).map Prod.snd) = _
    rw [zip_map_fst_snd']
    exact congrArg₂ (· ++ ·) (keySortWrites_eq_filterMap key hw tcols)
      (keyRestWrites_eq tcols key key.Cols 0 key.vs (List.drop_zero key.vs) hw)
  refine ⟨_, hproc.trans hsk, hpairs, ?_⟩
  rw [hpairs]
  exact specSortedPairs_perm tcols key hw ht hk

/-- C1 counterexample: with the duplicated sort list `["a", "a"]` over a key
whose two columns both carry the label `a` (values 1 and 2), `Process`
produces a key whose pairs are `[(a,1), (a,1)]` — value 2 is dropped and
value 1 duplicated — so the output is not a permutation of the input key,
refuting the claim without the duplicate-freeness hypotheses. -/
theorem sort_key_reorder_cex :
    ¬ (∃ k', processKey ["a", "a"] dupLabelKey = some k' ∧
        keyPairs k' = specSortedPairs ["a", "a"] dupLabelKey ∧
        (keyPairs k').Perm (keyPairs dupLabelKey)) := by
  rintro ⟨k', hk, -, hperm⟩
  have he : processKey ["a", "a"] dupLabelKey =
      some ⟨[⟨"a", ColType.TInt⟩, ⟨"a", ColType.TInt⟩],
        [Value.vInt 1, Value.vInt 1]⟩ := by decide
  rw [he] at hk
  cases hk
  exact absurd hperm (by decide)

/-- C1 witness: sorting by the second column of a two-column key reorders
the pairs with no loss. -/
theorem sort_key_reorder_witness :
    ∃ k', processKey ["b"] witnessKey = some k' ∧
      keyPairs k' = specSortedPairs ["b"] witnessKey ∧
      (keyPairs k').Perm (keyPairs witnessKey) :=
  sort_key_reorder ["b"] witnessKey (by decide) (by decide) (by decide)
    (by decide)
